import Mathlib

/-!
Verification of the non-blocking logger pipeline (`src/worker.rs`, `src/io.rs`,
`src/lib.rs`) as a shallow embedding.

Bytes are modelled as `Nat`, byte buffers as `List Nat`.  The outcome of each
OS-level `write` call (and of the `wait_writable` poll that follows a
zero-byte or would-block result) is nondeterministic, so the embedding takes
an explicit schedule of per-call outcomes (`WStep`), mirroring the `match`
arms of the Rust code.  The worker loop `LogWorker::run` is embedded as a
function from the sequence of messages the worker receives — together with
oracles for `try_recv` availability, write-call schedules and `flush`
outcomes — to the trace of externally visible events.
-/

namespace NonblockLog

/-- Outcome of one `pipe.write(slice)` call in the retry loop, mirroring the
match arms of `LogWorker::write_buffer` (worker.rs:66-95).  `ok n` is
`Ok(n)`; when `n = 0` the code falls into the wait branch, whose
`wait_writable` result is `waitOk`.  `wouldBlock` is an `ErrorKind::WouldBlock`
error (again followed by a wait with result `waitOk`), and `hardErr` is any
other I/O error. -/
inductive WStep : Type
  | ok (n : Nat) (waitOk : Bool)
  | wouldBlock (waitOk : Bool)
  | hardErr
deriving DecidableEq, Repr

/-- Result of a (modelled) `write_buffer` call: `success` is `Ok(())`,
`ioError` is `Err(_)` (a hard write error or a failed `wait_writable`
propagated by `?`), and `pending` records that the outcome schedule ran out
while the loop still had bytes to write (the call is still in progress). -/
inductive WOut : Type
  | success
  | ioError
  | pending
deriving DecidableEq, Repr

/-- The retry loop of `LogWorker::write_buffer` (worker.rs:48-99) from cursor
position `cursor`: `while cursor < buf.len()` attempt a write of
`buf[cursor..]`; `Ok(0)`/`WouldBlock` wait for writability (propagating a
poll failure via `?`) and retry without advancing; `Ok(n)` advances the
cursor by `n`; any other error returns immediately.  Returns the bytes the
OS accepted together with the call's outcome. -/
def write_buffer_from (buf : List Nat) (cursor : Nat) : List WStep → List Nat × WOut
  | [] => if cursor < buf.length then ([], .pending) else ([], .success)
  | s :: rest =>
    if cursor < buf.length then
      match s with
      | .ok 0 waitOk =>
          if waitOk then write_buffer_from buf cursor rest else ([], .ioError)
      | .ok (n+1) _ =>
          let r := write_buffer_from buf (cursor + (n+1)) rest
          ((buf.drop cursor).take (n+1) ++ r.1, r.2)
      | .wouldBlock waitOk =>
          if waitOk then write_buffer_from buf cursor rest else ([], .ioError)
      | .hardErr => ([], .ioError)
    else ([], .success)

/-- The call `LogWorker::write_buffer buf` with a given outcome schedule: the retry
loop starting at cursor 0. -/
def write_buffer (buf : List Nat) (steps : List WStep) : List Nat × WOut :=
  write_buffer_from buf 0 steps

/-- A message on the hand-off channel (`WorkerMessage`, worker.rs:14-19):
either a log payload or a flush request.  The one-shot completion sender
attached to a flush is modelled by a numeric handle identifying it. -/
inductive WorkerMessage : Type
  | log (payload : List Nat)
  | flush (id : Nat)
deriving DecidableEq, Repr

/-- What a `try_recv` call observes (worker.rs:142): `ready` means the next
message of the sequence is already in the queue (`Ok`), `empty` means the
queue is momentarily empty (`Err(Empty)`), and `closed` means the queue is
empty and all senders are gone (`Err(Disconnected)`).  The channel reports
`Disconnected` only once it is empty, so `closed` is honest only when no
messages remain; the embedding treats `closed` with messages remaining (and
`ready` with none remaining) as `empty`. -/
inductive TRSignal : Type
  | ready
  | empty
  | closed
deriving DecidableEq, Repr

/-- Externally visible events of the worker loop: bytes accepted by the
destination stream through a `write_buffer` call (with that call's outcome),
an OS-level `flush` of the stream (with its outcome), the signalling of a
flush's one-shot completion handle, and the two stderr side-channel
diagnostics (for a failed buffer write and for a failed stream flush). -/
inductive Event : Type
  | wrote (bytes : List Nat) (res : WOut)
  | osFlush (ok : Bool)
  | signaled (id : Nat)
  | diagWrite
  | diagFlush
deriving DecidableEq, Repr

/-- Pop the head of an oracle list, falling back to a default when the list
is exhausted. -/
def pop (l : List α) (d : α) : α × List α :=
  match l with
  | [] => (d, [])
  | x :: xs => (x, xs)

/-- The stderr diagnostic emitted after a `write_buffer` call:
`if let Err(err) = res { write_stderr_with_retry_internal(...) }`.  Present
exactly when the call returned an error. -/
def diagOf (res : WOut) : List Event :=
  if res = .ioError then [.diagWrite] else []

/-- The stderr diagnostic emitted after `stdout.lock().flush()`. -/
def flushDiag (ok : Bool) : List Event :=
  if ok then [] else [.diagFlush]

/-- The worker loop `LogWorker::run` (worker.rs:101-197) over the sequence
of messages it receives, with the running flag held true throughout (the
loop ends when the channel is closed and drained).  `av` schedules what each
`try_recv` call observes, `ws` schedules the write-call outcomes of each
`write_buffer` invocation, and `fl` schedules the outcome of each OS-level
stream flush.  Per iteration: a blocking `recv` takes the next message; a
`Flush` is answered by flushing the stream, reporting any error to stderr
and signalling the completion handle; a `Log` of at least 1280 bytes is
written immediately; a smaller `Log` is held while one `try_recv` looks for
a second message — `Ok(Log)` batches the two payloads into the pipe buffer
and writes them together, `Ok(Flush)` writes the held payload, flushes and
signals, `Empty` writes the held payload alone, and `Disconnected` breaks
out of the loop (dropping the held payload). -/
def run : List WorkerMessage → List TRSignal → List (List WStep) → List Bool →
    List Event
  | [], _, _, _ => []
  | .flush id :: rest, av, ws, fl =>
      let f := pop fl true
      .osFlush f.1 :: (flushDiag f.1 ++ (.signaled id :: run rest av ws f.2))
  | .log m :: rest, av, ws, fl =>
      if m.length < 1280 then
        let a := pop av .empty
        match rest, a.1 with
        | .log m2 :: rest2, .ready =>
            let s := pop ws []
            let w := write_buffer (m ++ m2) s.1
            .wrote w.1 w.2 :: (diagOf w.2 ++ run rest2 a.2 s.2 fl)
        | .flush id :: rest2, .ready =>
            let s := pop ws []
            let w := write_buffer m s.1
            let f := pop fl true
            .wrote w.1 w.2 :: .osFlush f.1 :: .signaled id ::
              (diagOf w.2 ++ flushDiag f.1 ++ run rest2 a.2 s.2 f.2)
        | [], .closed => []
        | r, _ =>
            let s := pop ws []
            let w := write_buffer m s.1
            .wrote w.1 w.2 :: (diagOf w.2 ++ run r a.2 s.2 fl)
      else
        let s := pop ws []
        let w := write_buffer m s.1
        .wrote w.1 w.2 :: (diagOf w.2 ++ run rest av s.2 fl)

/-- The concatenation of the log payloads of a message sequence, in order. -/
def concatPayloads : List WorkerMessage → List Nat
  | [] => []
  | .log m :: rest => m ++ concatPayloads rest
  | .flush _ :: rest => concatPayloads rest

/-- The bytes delivered to the destination stream along a trace: the
concatenation of the byte chunks of its write events. -/
def deliveredBytes : List Event → List Nat
  | [] => []
  | .wrote d _ :: rest => d ++ deliveredBytes rest
  | _ :: rest => deliveredBytes rest

/-- Number of times the completion handle `id` is signaled along a trace. -/
def countSignaled (id : Nat) : List Event → Nat
  | [] => 0
  | .signaled j :: rest =>
      (if j = id then 1 else 0) + countSignaled id rest
  | _ :: rest => countSignaled id rest

/-- Number of flush requests carrying the handle `id` in a message
sequence. -/
def countFlush (id : Nat) : List WorkerMessage → Nat
  | [] => 0
  | .flush j :: rest => (if j = id then 1 else 0) + countFlush id rest
  | _ :: rest => countFlush id rest

/-- Every write event of the trace completed successfully. -/
def writesOk : List Event → Bool
  | [] => true
  | .wrote _ r :: rest => (r = WOut.success) && writesOk rest
  | _ :: rest => writesOk rest

/-- The log-level filter (`log::LevelFilter`): `Off < Error < Warn < Info <
Debug < Trace`. -/
inductive LevelFilter : Type
  | off
  | error
  | warn
  | info
  | debug
  | trace
deriving DecidableEq, Repr

/-- Numeric rank of a level filter, giving the `log` crate's order. -/
def LevelFilter.toNat : LevelFilter → Nat
  | .off => 0
  | .error => 1
  | .warn => 2
  | .info => 3
  | .debug => 4
  | .trace => 5

/-- The `<=` comparison on level filters used by `enabled`. -/
def lfLe (a b : LevelFilter) : Bool :=
  Nat.ble a.toNat b.toNat

/-- A record's log level (`log::Level`): there is no `Off` level. -/
inductive Level : Type
  | error
  | warn
  | info
  | debug
  | trace
deriving DecidableEq, Repr

/-- The conversion `Level::to_level_filter`. -/
def Level.toLevelFilter : Level → LevelFilter
  | .error => .error
  | .warn => .warn
  | .info => .info
  | .debug => .debug
  | .trace => .trace

/-- The logger options relevant to level filtering (lib.rs:40-62): the
default level and the per-module overrides, kept sorted from most-specific
(longest name) to least-specific so that the first match in `enabled` is the
most specific one.  Module names and targets are byte strings, modelled as
character lists. -/
structure NonBlockingOptions : Type where
  default_level : LevelFilter
  module_levels : List (List Char × LevelFilter)
deriving DecidableEq, Repr

/-- The sort key of `with_module_level` (lib.rs:119):
`name.len().wrapping_neg()` on a 64-bit `usize`.  A nonempty name of length
`n` gets the key `2^64 - n`, so longer nonempty names get smaller keys and
sort first; an empty name wraps to `0`, the smallest key of all, and sorts
in front of everything. -/
def wrapNegKey (name : List Char) : Nat :=
  (2 ^ 64 - name.length) % 2 ^ 64

/-- Insert an override into a list sorted ascending by `wrapNegKey`,
placing it after every entry whose key is at most its own.  On a sorted
list this is exactly what `with_module_level` (lib.rs:114-121) computes by
pushing the new entry at the end and re-running a stable
`sort_by_key(name.len().wrapping_neg())`: entries with strictly smaller
keys stay in front, and among equal keys the pushed entry, being last,
stays behind. -/
def insertByKey (x : List Char × LevelFilter) :
    List (List Char × LevelFilter) → List (List Char × LevelFilter)
  | [] => [x]
  | y :: ys =>
      if wrapNegKey y.1 ≤ wrapNegKey x.1 then y :: insertByKey x ys
      else x :: y :: ys

/-- The builder step `NonBlockingLoggerBuilder::with_module_level` (lib.rs:114-121). -/
def with_module_level (o : NonBlockingOptions) (target : List Char)
    (level : LevelFilter) : NonBlockingOptions :=
  { o with module_levels := insertByKey (target, level) o.module_levels }

/-- Every override name in the list is nonempty and shorter than `2^64` —
the lengths a real (64-bit address space) module path can have, and the
range on which the wrapping-negated key orders names by descending
length. -/
def namesValid : List (List Char × LevelFilter) → Bool
  | [] => true
  | x :: r =>
      (decide (0 < x.1.length) && decide (x.1.length < 2 ^ 64)) && namesValid r

/-- The override list is sorted by descending name length. -/
def sortedByLenDesc : List (List Char × LevelFilter) → Bool
  | [] => true
  | [_] => true
  | x :: y :: r => Nat.ble y.1.length x.1.length && sortedByLenDesc (y :: r)

/-- The filter `Log::enabled` (lib.rs:299-311): the record's level, converted to a
filter, is compared against the level of the first module override whose
name starts the target, falling back to the default level when no override
matches. -/
def enabled (o : NonBlockingOptions) (target : List Char) (lvl : Level) : Bool :=
  lfLe lvl.toLevelFilter
    (((o.module_levels.find? (fun p => p.1.isPrefixOf target)).map Prod.snd).getD
      o.default_level)

/-- The overrides of the spec's worked example, built through
`with_module_level`: first `("db", Info)`, then `("db::pool", Trace)`, on
top of the builder's default level `Trace` (lib.rs:80). -/
def dbOpts : NonBlockingOptions :=
  with_module_level
    (with_module_level ⟨.trace, []⟩ ("db".toList) .info)
    ("db::pool".toList) .trace

/-- Overrides with an empty module name, built through
`with_module_level`: first `("", Info)`, then `("db", Trace)`.  The empty
name's wrapped key is `0`, the smallest, so the source's sort keeps it in
front of the longer name. -/
def emptyNameOpts : NonBlockingOptions :=
  with_module_level (with_module_level ⟨.trace, []⟩ [] .info) ("db".toList) .trace

/-- The logger's error type (lib.rs:242-245). -/
inductive NonBlockingLoggerError : Type
  | error (reason : String)
deriving DecidableEq, Repr

/-- The operation `NonBlockingLogger::shutdown` (lib.rs:280-295) acting on the running
flag: `compare_exchange(true, false)` succeeds exactly when the flag is
`true`, storing `false`; on failure the flag is left unchanged and the
already-shut-down error is returned.  Returns the result paired with the
new flag value. -/
def shutdown (running : Bool) : Except NonBlockingLoggerError Unit × Bool :=
  if running then
    (Except.ok (), false)
  else
    (Except.error
        (.error "Failed to shutdown logger: It was already shutted down"),
      running)

/-- Observable effects of the hot logging path of the facade. -/
inductive FacadeEvent : Type
  | enqueued (payload : List Nat)
  | stderrDiag
deriving DecidableEq, Repr

/-- The enqueue step of `Log::log` (lib.rs:418-420): the formatted message
is sent on the channel; if the send fails the error is reported to stderr
through the internal retry writer and the function still returns unit —
no panic, no error result reaches the caller. -/
def log_send (sendOk : Bool) (payload : List Nat) : Unit × List FacadeEvent :=
  if sendOk then ((), [.enqueued payload]) else ((), [.stderrDiag])

/-- The retry loop of `write_with_retry_internal` (io.rs:75-112) from
offset `written`: like `write_buffer` it retries on `Ok(0)`/`WouldBlock`
and advances on `Ok(n)`, but every failure — a hard write error, or a
failed `wait_writable` after a zero-byte or would-block result — `break`s
out of the loop, silently abandoning the remaining bytes.  The function
returns only the bytes delivered: it has no error result at all. -/
def write_with_retry_internal_from (bytes : List Nat) (written : Nat) :
    List WStep → List Nat
  | [] => []
  | s :: rest =>
    if written < bytes.length then
      match s with
      | .ok 0 waitOk =>
          if waitOk then write_with_retry_internal_from bytes written rest else []
      | .ok (n+1) _ =>
          (bytes.drop written).take (n+1) ++
            write_with_retry_internal_from bytes (written + (n+1)) rest
      | .wouldBlock waitOk =>
          if waitOk then write_with_retry_internal_from bytes written rest else []
      | .hardErr => []
    else []

/-- The function `write_with_retry_internal` (io.rs:75-112) with a given outcome
schedule, starting at offset 0. -/
def write_with_retry_internal (bytes : List Nat) (steps : List WStep) : List Nat :=
  write_with_retry_internal_from bytes 0 steps

/-- When the retry loop reports success, the bytes accepted by the OS are
exactly the remaining part of the buffer: nothing is dropped or duplicated. -/
theorem write_buffer_from_success (buf : List Nat) :
    ∀ (steps : List WStep) (cursor : Nat),
      (write_buffer_from buf cursor steps).2 = .success →
      (write_buffer_from buf cursor steps).1 = buf.drop cursor := by
  intro steps
  induction steps with
  | nil =>
      intro cursor h
      by_cases hc : cursor < buf.length
      · simp [write_buffer_from, hc] at h
      · simp [write_buffer_from, hc]
        omega
  | cons s rest ih =>
      intro cursor h
      by_cases hc : cursor < buf.length
      · cases s with
        | ok n waitOk =>
            cases n with
            | zero =>
                cases waitOk with
                | true =>
                    simp only [write_buffer_from, hc, if_true, if_pos] at h ⊢
                    exact ih cursor h
                | false => simp [write_buffer_from, hc] at h
            | succ n =>
                simp only [write_buffer_from, hc, if_pos] at h ⊢
                have hrec := ih (cursor + (n+1)) h
                rw [hrec]
                have hd : buf.drop (cursor + (n + 1)) = (buf.drop cursor).drop (n+1) := by
                  rw [List.drop_drop]
                rw [hd, List.take_append_drop]
        | wouldBlock waitOk =>
            cases waitOk with
            | true =>
                simp only [write_buffer_from, hc, if_pos] at h ⊢
                exact ih cursor h
            | false => simp [write_buffer_from, hc] at h
        | hardErr => simp [write_buffer_from, hc] at h
      · simp [write_buffer_from, hc]
        omega

/-- Unfolding `run` on a flush received by the blocking `recv`
(worker.rs:124-136): flush the stream, report a flush error to stderr, then
signal the completion handle and continue. -/
theorem run_flush_eq (id : Nat) (rest : List WorkerMessage) (av : List TRSignal)
    (ws : List (List WStep)) (fl : List Bool) :
    run (.flush id :: rest) av ws fl =
      .osFlush (pop fl true).1 ::
        (flushDiag (pop fl true).1 ++
          (.signaled id :: run rest av ws (pop fl true).2)) := rfl

/-- Unfolding `run` on a log payload of at least 1280 bytes
(worker.rs:113-121): the payload bypasses the pipe buffer and is written
immediately, any error is reported to stderr, and the loop continues. -/
theorem run_big_eq (m : List Nat) (rest : List WorkerMessage) (av : List TRSignal)
    (ws : List (List WStep)) (fl : List Bool) (hm : 1280 ≤ m.length) :
    run (.log m :: rest) av ws fl =
      .wrote (write_buffer m (pop ws []).1).1 (write_buffer m (pop ws []).1).2 ::
        (diagOf (write_buffer m (pop ws []).1).2 ++ run rest av (pop ws []).2 fl) := by
  rw [run.eq_3, if_neg (by omega)]

/-- Unfolding `run` on a small log payload whose `try_recv` finds a second
log payload (worker.rs:144-161): both payloads are appended to the pipe
buffer and written together. -/
theorem run_batch_eq (m m2 : List Nat) (rest2 : List WorkerMessage)
    (av' : List TRSignal) (ws : List (List WStep)) (fl : List Bool)
    (hm : m.length < 1280) :
    run (.log m :: .log m2 :: rest2) (.ready :: av') ws fl =
      .wrote (write_buffer (m ++ m2) (pop ws []).1).1
          (write_buffer (m ++ m2) (pop ws []).1).2 ::
        (diagOf (write_buffer (m ++ m2) (pop ws []).1).2 ++
          run rest2 av' (pop ws []).2 fl) := by
  rw [run.eq_3, if_pos hm]
  rfl

/-- Unfolding `run` on a small log payload whose `try_recv` finds a flush
(worker.rs:162-184): the held payload is written, the stream flushed, the
completion handle signaled, and only then are any errors reported. -/
theorem run_write_flush_eq (m : List Nat) (id : Nat) (rest2 : List WorkerMessage)
    (av' : List TRSignal) (ws : List (List WStep)) (fl : List Bool)
    (hm : m.length < 1280) :
    run (.log m :: .flush id :: rest2) (.ready :: av') ws fl =
      .wrote (write_buffer m (pop ws []).1).1 (write_buffer m (pop ws []).1).2 ::
        .osFlush (pop fl true).1 :: .signaled id ::
        (diagOf (write_buffer m (pop ws []).1).2 ++ flushDiag (pop fl true).1 ++
          run rest2 av' (pop ws []).2 (pop fl true).2) := by
  rw [run.eq_3, if_pos hm]
  rfl

/-- Unfolding `run` on a small log payload whose `try_recv` reports
`Disconnected` (worker.rs:194): the loop breaks at once, dropping the held
payload without writing it. -/
theorem run_drop_eq (m : List Nat) (av' : List TRSignal) (ws : List (List WStep))
    (fl : List Bool) (hm : m.length < 1280) :
    run [.log m] (.closed :: av') ws fl = [] := by
  rw [run.eq_3, if_pos hm]
  rfl

/-- Unfolding `run` on a small log payload whose `try_recv` reports `Empty`
(worker.rs:186-193): the held payload is written alone and the loop
continues. -/
theorem run_empty_eq (m : List Nat) (rest : List WorkerMessage)
    (av' : List TRSignal) (ws : List (List WStep)) (fl : List Bool)
    (hm : m.length < 1280) :
    run (.log m :: rest) (.empty :: av') ws fl =
      .wrote (write_buffer m (pop ws []).1).1 (write_buffer m (pop ws []).1).2 ::
        (diagOf (write_buffer m (pop ws []).1).2 ++ run rest av' (pop ws []).2 fl) := by
  rw [run.eq_3, if_pos hm]
  cases rest with
  | nil => rfl
  | cons h t => cases h <;> rfl

/-- Unfolding `run` on a small log payload when the `try_recv` oracle is
exhausted: treated as `Empty`, the held payload is written alone. -/
theorem run_noav_eq (m : List Nat) (rest : List WorkerMessage)
    (ws : List (List WStep)) (fl : List Bool) (hm : m.length < 1280) :
    run (.log m :: rest) [] ws fl =
      .wrote (write_buffer m (pop ws []).1).1 (write_buffer m (pop ws []).1).2 ::
        (diagOf (write_buffer m (pop ws []).1).2 ++ run rest [] (pop ws []).2 fl) := by
  rw [run.eq_3, if_pos hm]
  cases rest with
  | nil => rfl
  | cons h t => cases h <;> rfl

/-- Unfolding `run` on a small log payload when `try_recv` claims a message
is ready but none remains: no message can be returned, so the held payload
is written alone as in the `Empty` case. -/
theorem run_ready_nil_eq (m : List Nat) (av' : List TRSignal)
    (ws : List (List WStep)) (fl : List Bool) (hm : m.length < 1280) :
    run [.log m] (.ready :: av') ws fl =
      .wrote (write_buffer m (pop ws []).1).1 (write_buffer m (pop ws []).1).2 ::
        (diagOf (write_buffer m (pop ws []).1).2 ++ run [] av' (pop ws []).2 fl) := by
  rw [run.eq_3, if_pos hm]
  rfl

/-- Unfolding `run` on a small log payload when `try_recv` reports
`Disconnected` while messages remain: the channel only reports
disconnection once it is empty, so this is treated as `Empty`. -/
theorem run_closed_cons_eq (m : List Nat) (h : WorkerMessage)
    (t : List WorkerMessage) (av' : List TRSignal) (ws : List (List WStep))
    (fl : List Bool) (hm : m.length < 1280) :
    run (.log m :: h :: t) (.closed :: av') ws fl =
      .wrote (write_buffer m (pop ws []).1).1 (write_buffer m (pop ws []).1).2 ::
        (diagOf (write_buffer m (pop ws []).1).2 ++ run (h :: t) av' (pop ws []).2 fl) := by
  rw [run.eq_3, if_pos hm]
  cases h <;> rfl

theorem countSignaled_append (id : Nat) (t1 t2 : List Event) :
    countSignaled id (t1 ++ t2) = countSignaled id t1 + countSignaled id t2 := by
  induction t1 with
  | nil => simp [countSignaled]
  | cons e t ih => cases e <;> simp [countSignaled, ih, Nat.add_assoc]

theorem countSignaled_diagOf (id : Nat) (r : WOut) :
    countSignaled id (diagOf r) = 0 := by
  unfold diagOf
  split <;> rfl

theorem countSignaled_flushDiag (id : Nat) (b : Bool) :
    countSignaled id (flushDiag b) = 0 := by
  cases b <;> rfl

/-- Claim C4: every `Flush` message the worker processes leads to its
one-shot completion handle being signaled exactly once, whatever the
outcomes of the preceding buffer write and of the OS-level stream flush —
the number of `signaled id` events in the worker's trace equals the number
of `Flush id` messages it receives, for every oracle, including ones that
make writes and flushes fail. -/
theorem flush_signaled_exactly_once :
    ∀ (msgs : List WorkerMessage) (av : List TRSignal) (ws : List (List WStep))
      (fl : List Bool) (id : Nat),
      countSignaled id (run msgs av ws fl) = countFlush id msgs := by
  have main : ∀ (n : Nat) (msgs : List WorkerMessage), msgs.length ≤ n →
      ∀ (av : List TRSignal) (ws : List (List WStep)) (fl : List Bool) (id : Nat),
        countSignaled id (run msgs av ws fl) = countFlush id msgs := by
    intro n
    induction n with
    | zero =>
        intro msgs hlen av ws fl id
        have hnil : msgs = [] := List.eq_nil_of_length_eq_zero (by omega)
        subst hnil
        rfl
    | succ n ih =>
        intro msgs hlen av ws fl id
        cases msgs with
        | nil => rfl
        | cons head rest =>
          cases head with
          | flush j =>
              rw [run_flush_eq]
              simp only [countSignaled, countSignaled_append, countSignaled_flushDiag,
                countFlush]
              rw [ih rest (by simp at hlen; omega) av ws (pop fl true).2 id]
              omega
          | log m =>
              by_cases hm : m.length < 1280
              · cases av with
                | nil =>
                    rw [run_noav_eq m rest ws fl hm]
                    simp only [countSignaled, countSignaled_append, countSignaled_diagOf,
                      countFlush]
                    rw [ih rest (by simp at hlen; omega) [] (pop ws []).2 fl id]
                    omega
                | cons sig av' =>
                    cases sig with
                    | empty =>
                        rw [run_empty_eq m rest av' ws fl hm]
                        simp only [countSignaled, countSignaled_append,
                          countSignaled_diagOf, countFlush]
                        rw [ih rest (by simp at hlen; omega) av' (pop ws []).2 fl id]
                        omega
                    | ready =>
                        cases rest with
                        | nil =>
                            rw [run_ready_nil_eq m av' ws fl hm]
                            simp only [countSignaled, countSignaled_append,
                              countSignaled_diagOf, run.eq_1, countFlush]
                        | cons h2 t2 =>
                            cases h2 with
                            | log m2 =>
                                rw [run_batch_eq m m2 t2 av' ws fl hm]
                                simp only [countSignaled, countSignaled_append,
                                  countSignaled_diagOf, countFlush]
                                rw [ih t2 (by simp at hlen; omega) av' (pop ws []).2 fl id]
                                omega
                            | flush j =>
                                rw [run_write_flush_eq m j t2 av' ws fl hm]
                                simp only [countSignaled, countSignaled_append,
                                  countSignaled_diagOf, countSignaled_flushDiag,
                                  countFlush]
                                rw [ih t2 (by simp at hlen; omega) av' (pop ws []).2
                                  (pop fl true).2 id]
                                omega
                    | closed =>
                        cases rest with
                        | nil =>
                            rw [run_drop_eq m av' ws fl hm]
                            rfl
                        | cons h2 t2 =>
                            rw [run_closed_cons_eq m h2 t2 av' ws fl hm]
                            simp only [countSignaled, countSignaled_append,
                              countSignaled_diagOf, countFlush]
                            rw [ih (h2 :: t2) (by simp at hlen ⊢; omega) av'
                              (pop ws []).2 fl id]
                            omega
              · rw [run_big_eq m rest av ws fl (by omega)]
                simp only [countSignaled, countSignaled_append, countSignaled_diagOf,
                  countFlush]
                rw [ih rest (by simp at hlen; omega) av (pop ws []).2 fl id]
                omega
  intro msgs av ws fl id
  exact main msgs.length msgs (le_refl _) av ws fl id

theorem writesOk_append (t1 t2 : List Event) :
    writesOk (t1 ++ t2) = (writesOk t1 && writesOk t2) := by
  induction t1 with
  | nil => simp [writesOk]
  | cons e t ih => cases e <;> simp [writesOk, ih, Bool.and_assoc]

theorem deliveredBytes_append (t1 t2 : List Event) :
    deliveredBytes (t1 ++ t2) = deliveredBytes t1 ++ deliveredBytes t2 := by
  induction t1 with
  | nil => simp [deliveredBytes]
  | cons e t ih => cases e <;> simp [deliveredBytes, ih]

/-- Peeling a non-matching head event off a trace split around a `signaled`
event. -/
theorem peel_cons (e : Event) (rest t1 t2 : List Event) (id : Nat)
    (h : e :: rest = t1 ++ .signaled id :: t2) (he : e ≠ .signaled id) :
    ∃ t1p, t1 = e :: t1p ∧ rest = t1p ++ .signaled id :: t2 := by
  cases t1 with
  | nil =>
      simp only [List.nil_append, List.cons.injEq] at h
      exact absurd h.1 he
  | cons x t1p =>
      simp only [List.cons_append, List.cons.injEq] at h
      exact ⟨t1p, by rw [h.1], h.2⟩

/-- Splitting a trace that starts with a `signaled` event around a
`signaled id` event: either the heads match, or the head belongs to the
left part. -/
theorem split_signaled (j : Nat) (rest t1 t2 : List Event) (id : Nat)
    (h : .signaled j :: rest = t1 ++ .signaled id :: t2) :
    (t1 = [] ∧ j = id ∧ rest = t2) ∨
      ∃ t1p, t1 = .signaled j :: t1p ∧ rest = t1p ++ .signaled id :: t2 := by
  cases t1 with
  | nil =>
      simp only [List.nil_append, List.cons.injEq] at h
      exact Or.inl ⟨rfl, by injection h.1, h.2⟩
  | cons x t1p =>
      simp only [List.cons_append, List.cons.injEq] at h
      exact Or.inr ⟨t1p, by rw [h.1], h.2⟩

theorem diagOf_success : diagOf .success = [] := rfl

theorem flushDiag_true : flushDiag true = [] := rfl

theorem flushDiag_false : flushDiag false = [.diagFlush] := rfl

/-- A successful `write_buffer` call delivers exactly its buffer. -/
theorem write_buffer_success (buf : List Nat) (steps : List WStep)
    (h : (write_buffer buf steps).2 = .success) :
    (write_buffer buf steps).1 = buf := by
  have hs := write_buffer_from_success buf steps 0 h
  simpa using hs

/-- Claim C3: the flush barrier.  Whenever the worker signals a flush's
completion handle (the event a blocked `flush()` caller waits on,
lib.rs:424-439), every log payload received before that flush request has
already been delivered in full to the destination stream: for any split of
the worker trace at a `signaled id` event, there is a position `p` of the
message sequence holding `Flush id` such that the bytes delivered strictly
before the signal are exactly the concatenation of the log payloads
preceding position `p`.  Write outcomes are assumed successful (`writesOk`);
on a write error the payload is knowingly abandoned to stderr reporting. -/
theorem flush_barrier_delivers_prior_logs :
    ∀ (msgs : List WorkerMessage) (av : List TRSignal) (ws : List (List WStep))
      (fl : List Bool) (t1 t2 : List Event) (id : Nat),
      writesOk (run msgs av ws fl) = true →
      run msgs av ws fl = t1 ++ .signaled id :: t2 →
      ∃ p, msgs.get? p = some (.flush id) ∧
        deliveredBytes t1 = concatPayloads (msgs.take p) := by
  have main : ∀ (n : Nat) (msgs : List WorkerMessage), msgs.length ≤ n →
      ∀ (av : List TRSignal) (ws : List (List WStep)) (fl : List Bool)
        (t1 t2 : List Event) (id : Nat),
        writesOk (run msgs av ws fl) = true →
        run msgs av ws fl = t1 ++ .signaled id :: t2 →
        ∃ p, msgs.get? p = some (.flush id) ∧
          deliveredBytes t1 = concatPayloads (msgs.take p) := by
    intro n
    induction n with
    | zero =>
        intro msgs hlen av ws fl t1 t2 id hok hsplit
        have hnil : msgs = [] := List.eq_nil_of_length_eq_zero (by omega)
        subst hnil
        rw [run.eq_1] at hsplit
        cases t1 <;> simp at hsplit
    | succ n ih =>
        intro msgs hlen av ws fl t1 t2 id hok hsplit
        cases msgs with
        | nil =>
            rw [run.eq_1] at hsplit
            cases t1 <;> simp at hsplit
        | cons head rest =>
          cases head with
          | flush j =>
              rw [run_flush_eq] at hok hsplit
              cases hfok : (pop fl true).1 with
              | true =>
                  rw [hfok, flushDiag_true] at hok hsplit
                  simp only [List.nil_append] at hok hsplit
                  simp only [writesOk] at hok
                  obtain ⟨t1p, rfl, hs2⟩ := peel_cons _ _ _ _ _ hsplit (by simp)
                  rcases split_signaled _ _ _ _ _ hs2 with ⟨rfl, rfl, rfl⟩ | ⟨t1q, rfl, hs3⟩
                  · exact ⟨0, rfl, rfl⟩
                  · obtain ⟨p, hp, hd⟩ := ih rest (by simp at hlen; omega) av ws
                      (pop fl true).2 t1q t2 id hok hs3
                    refine ⟨p + 1, by simpa using hp, ?_⟩
                    simpa [deliveredBytes, concatPayloads] using hd
              | false =>
                  rw [hfok, flushDiag_false] at hok hsplit
                  simp only [List.cons_append, List.nil_append] at hok hsplit
                  simp only [writesOk] at hok
                  obtain ⟨t1p, rfl, hs2⟩ := peel_cons _ _ _ _ _ hsplit (by simp)
                  obtain ⟨t1q, rfl, hs3⟩ := peel_cons _ _ _ _ _ hs2 (by simp)
                  rcases split_signaled _ _ _ _ _ hs3 with ⟨rfl, rfl, rfl⟩ | ⟨t1r, rfl, hs4⟩
                  · exact ⟨0, rfl, rfl⟩
                  · obtain ⟨p, hp, hd⟩ := ih rest (by simp at hlen; omega) av ws
                      (pop fl true).2 t1r t2 id hok hs4
                    refine ⟨p + 1, by simpa using hp, ?_⟩
                    simpa [deliveredBytes, concatPayloads] using hd
          | log m =>
              by_cases hm : m.length < 1280
              · cases av with
                | nil =>
                    rw [run_noav_eq m rest ws fl hm] at hok hsplit
                    simp only [writesOk, writesOk_append, Bool.and_eq_true,
                      decide_eq_true_eq] at hok
                    obtain ⟨hsucc, hdiag, hR⟩ := hok
                    rw [hsucc, diagOf_success, List.nil_append] at hsplit
                    obtain ⟨t1p, rfl, hs2⟩ := peel_cons _ _ _ _ _ hsplit (by simp)
                    obtain ⟨p, hp, hd⟩ := ih rest (by simp at hlen; omega) []
                      (pop ws []).2 fl t1p t2 id hR hs2
                    refine ⟨p + 1, by simpa using hp, ?_⟩
                    have hw1 : (write_buffer m (pop ws []).1).1 = m :=
                      write_buffer_success _ _ hsucc
                    simp [deliveredBytes, concatPayloads, hw1, hd]
                | cons sig av' =>
                    cases sig with
                    | empty =>
                        rw [run_empty_eq m rest av' ws fl hm] at hok hsplit
                        simp only [writesOk, writesOk_append, Bool.and_eq_true,
                          decide_eq_true_eq] at hok
                        obtain ⟨hsucc, hdiag, hR⟩ := hok
                        rw [hsucc, diagOf_success, List.nil_append] at hsplit
                        obtain ⟨t1p, rfl, hs2⟩ := peel_cons _ _ _ _ _ hsplit (by simp)
                        obtain ⟨p, hp, hd⟩ := ih rest (by simp at hlen; omega) av'
                          (pop ws []).2 fl t1p t2 id hR hs2
                        refine ⟨p + 1, by simpa using hp, ?_⟩
                        have hw1 : (write_buffer m (pop ws []).1).1 = m :=
                          write_buffer_success _ _ hsucc
                        simp [deliveredBytes, concatPayloads, hw1, hd]
                    | ready =>
                        cases rest with
                        | nil =>
                            rw [run_ready_nil_eq m av' ws fl hm] at hok hsplit
                            simp only [writesOk, writesOk_append, Bool.and_eq_true,
                              decide_eq_true_eq] at hok
                            obtain ⟨hsucc, hdiag, hR⟩ := hok
                            rw [hsucc, diagOf_success, List.nil_append] at hsplit
                            obtain ⟨t1p, rfl, hs2⟩ := peel_cons _ _ _ _ _ hsplit (by simp)
                            rw [run.eq_1] at hs2
                            cases t1p <;> simp at hs2
                        | cons h2 r2 =>
                            cases h2 with
                            | log m2 =>
                                rw [run_batch_eq m m2 r2 av' ws fl hm] at hok hsplit
                                simp only [writesOk, writesOk_append, Bool.and_eq_true,
                                  decide_eq_true_eq] at hok
                                obtain ⟨hsucc, hdiag, hR⟩ := hok
                                rw [hsucc, diagOf_success, List.nil_append] at hsplit
                                obtain ⟨t1p, rfl, hs2⟩ :=
                                  peel_cons _ _ _ _ _ hsplit (by simp)
                                obtain ⟨p, hp, hd⟩ := ih r2 (by simp at hlen; omega) av'
                                  (pop ws []).2 fl t1p t2 id hR hs2
                                refine ⟨p + 2, by simpa using hp, ?_⟩
                                have hw1 : (write_buffer (m ++ m2) (pop ws []).1).1 =
                                    m ++ m2 := write_buffer_success _ _ hsucc
                                simp [deliveredBytes, concatPayloads, hw1, hd]
                            | flush j =>
                                rw [run_write_flush_eq m j r2 av' ws fl hm] at hok hsplit
                                simp only [writesOk, writesOk_append, Bool.and_eq_true,
                                  decide_eq_true_eq] at hok
                                obtain ⟨hsucc, ⟨hdiag, hfd⟩, hR⟩ := hok
                                rw [hsucc, diagOf_success, List.nil_append] at hsplit
                                have hw1 : (write_buffer m (pop ws []).1).1 = m :=
                                  write_buffer_success _ _ hsucc
                                obtain ⟨t1p, rfl, hs2⟩ :=
                                  peel_cons _ _ _ _ _ hsplit (by simp)
                                obtain ⟨t1q, rfl, hs3⟩ :=
                                  peel_cons _ _ _ _ _ hs2 (by simp)
                                rcases split_signaled _ _ _ _ _ hs3 with
                                  ⟨rfl, rfl, rfl⟩ | ⟨t1r, rfl, hs4⟩
                                · refine ⟨1, rfl, ?_⟩
                                  simp [deliveredBytes, concatPayloads, hw1]
                                · by_cases hfok : (pop fl true).1 = true
                                  · rw [hfok, flushDiag_true, List.nil_append] at hs4
                                    obtain ⟨p, hp, hd⟩ := ih r2 (by simp at hlen; omega)
                                      av' (pop ws []).2 (pop fl true).2 t1r t2 id hR hs4
                                    refine ⟨p + 2, by simpa using hp, ?_⟩
                                    simp [deliveredBytes, concatPayloads, hw1, hd]
                                  · rw [Bool.not_eq_true] at hfok
                                    rw [hfok, flushDiag_false] at hs4
                                    simp only [List.cons_append, List.nil_append] at hs4
                                    obtain ⟨t1s, rfl, hs5⟩ :=
                                      peel_cons _ _ _ _ _ hs4 (by simp)
                                    obtain ⟨p, hp, hd⟩ := ih r2 (by simp at hlen; omega)
                                      av' (pop ws []).2 (pop fl true).2 t1s t2 id hR hs5
                                    refine ⟨p + 2, by simpa using hp, ?_⟩
                                    simp [deliveredBytes, concatPayloads, hw1, hd]
                    | closed =>
                        cases rest with
                        | nil =>
                            rw [run_drop_eq m av' ws fl hm] at hsplit
                            cases t1 <;> simp at hsplit
                        | cons h2 r2 =>
                            rw [run_closed_cons_eq m h2 r2 av' ws fl hm] at hok hsplit
                            simp only [writesOk, writesOk_append, Bool.and_eq_true,
                              decide_eq_true_eq] at hok
                            obtain ⟨hsucc, hdiag, hR⟩ := hok
                            rw [hsucc, diagOf_success, List.nil_append] at hsplit
                            obtain ⟨t1p, rfl, hs2⟩ := peel_cons _ _ _ _ _ hsplit (by simp)
                            obtain ⟨p, hp, hd⟩ := ih (h2 :: r2)
                              (by simp at hlen ⊢; omega) av'
                              (pop ws []).2 fl t1p t2 id hR hs2
                            refine ⟨p + 1, by simpa using hp, ?_⟩
                            have hw1 : (write_buffer m (pop ws []).1).1 = m :=
                              write_buffer_success _ _ hsucc
                            simp [deliveredBytes, concatPayloads, hw1, hd]
              · rw [run_big_eq m rest av ws fl (by omega)] at hok hsplit
                simp only [writesOk, writesOk_append, Bool.and_eq_true,
                  decide_eq_true_eq] at hok
                obtain ⟨hsucc, hdiag, hR⟩ := hok
                rw [hsucc, diagOf_success, List.nil_append] at hsplit
                obtain ⟨t1p, rfl, hs2⟩ := peel_cons _ _ _ _ _ hsplit (by simp)
                obtain ⟨p, hp, hd⟩ := ih rest (by simp at hlen; omega) av
                  (pop ws []).2 fl t1p t2 id hR hs2
                refine ⟨p + 1, by simpa using hp, ?_⟩
                have hw1 : (write_buffer m (pop ws []).1).1 = m :=
                  write_buffer_success _ _ hsucc
                simp [deliveredBytes, concatPayloads, hw1, hd]
  intro msgs av ws fl t1 t2 id hok hsplit
  exact main msgs.length msgs (le_refl _) av ws fl t1 t2 id hok hsplit

/-- Claim C1, evaluated at its failing input.  The claim says no enqueued
log payload is ever dropped once the worker drains the queue to completion.
But when the worker takes a last small `Log` message off the queue and the
following `try_recv` finds the channel empty and disconnected
(worker.rs:194), the loop `break`s while still holding the payload: the run
over the single-message sequence `[Log [120]]` with `try_recv` observing
`Disconnected` produces no write event at all, although the enqueued
payloads concatenate to `[120]`. -/
theorem worker_drops_last_payload_on_disconnect :
    run [.log [120]] [.closed] [] [] = [] ∧
    concatPayloads [.log [120]] = [120] ∧
    deliveredBytes (run [.log [120]] [.closed] [] []) ≠
      concatPayloads [.log [120]] := by
  refine ⟨rfl, rfl, ?_⟩
  decide

/-- Claim C2: the retry-write primitive `write_buffer` writes every byte of
its buffer.  (1) Whenever the call reports success, the bytes accepted by
the OS are exactly the buffer — byte-identical, however small the accepted
chunks were.  (2) A partial write of `n+1` bytes delivers precisely the
next `n+1` bytes and continues with the cursor advanced by `n+1`.  (3) A
zero-byte write or a would-block error whose wait succeeds retries with the
cursor unchanged.  (4) A hard error, or a failed wait after a zero-byte or
would-block result, returns an I/O error immediately: no further bytes are
written, whatever the rest of the schedule holds. -/
theorem write_buffer_writes_all :
    (∀ (buf : List Nat) (steps : List WStep),
        (write_buffer buf steps).2 = .success →
        (write_buffer buf steps).1 = buf) ∧
    (∀ (buf : List Nat) (cursor n : Nat) (waitOk : Bool) (rest : List WStep),
        cursor < buf.length →
        write_buffer_from buf cursor (.ok (n+1) waitOk :: rest) =
          ((buf.drop cursor).take (n+1) ++
              (write_buffer_from buf (cursor + (n+1)) rest).1,
            (write_buffer_from buf (cursor + (n+1)) rest).2)) ∧
    (∀ (buf : List Nat) (cursor : Nat) (rest : List WStep),
        cursor < buf.length →
        write_buffer_from buf cursor (.ok 0 true :: rest) =
            write_buffer_from buf cursor rest ∧
          write_buffer_from buf cursor (.wouldBlock true :: rest) =
            write_buffer_from buf cursor rest) ∧
    (∀ (buf : List Nat) (cursor : Nat) (rest : List WStep),
        cursor < buf.length →
        write_buffer_from buf cursor (.hardErr :: rest) = ([], .ioError) ∧
          write_buffer_from buf cursor (.ok 0 false :: rest) = ([], .ioError) ∧
          write_buffer_from buf cursor (.wouldBlock false :: rest) =
            ([], .ioError)) := by
  refine ⟨?_, ?_, ?_, ?_⟩
  · intro buf steps h
    exact write_buffer_success buf steps h
  · intro buf cursor n waitOk rest hc
    simp [write_buffer_from, hc]
  · intro buf cursor rest hc
    constructor <;> simp [write_buffer_from, hc]
  · intro buf cursor rest hc
    refine ⟨?_, ?_, ?_⟩ <;> simp [write_buffer_from, hc]

/-- Witness for C2: a three-byte buffer written in chunks of two and one
with a would-block retry in between is delivered byte-identical; a partial
write advances the cursor; a hard error aborts at once. -/
theorem write_buffer_writes_all_witness :
    (write_buffer [5, 6, 7] [.ok 2 true, .wouldBlock true, .ok 1 true]).1 =
        [5, 6, 7] ∧
    write_buffer_from [5, 6, 7] 0 [.ok 2 true, .ok 1 true] =
      ([5, 6] ++ (write_buffer_from [5, 6, 7] 2 [.ok 1 true]).1,
        (write_buffer_from [5, 6, 7] 2 [.ok 1 true]).2) ∧
    write_buffer_from [5, 6, 7] 1 [.hardErr, .ok 9 true] = ([], .ioError) :=
  ⟨write_buffer_writes_all.1 [5, 6, 7] [.ok 2 true, .wouldBlock true, .ok 1 true]
      (by decide),
    write_buffer_writes_all.2.1 [5, 6, 7] 0 1 true [.ok 1 true] (by decide),
    (write_buffer_writes_all.2.2.2 [5, 6, 7] 1 [.ok 9 true] (by decide)).1⟩

/-- Witness for C3: a two-byte log followed by a flush; the signal event is
preceded by the delivery of exactly that payload. -/
theorem flush_barrier_delivers_prior_logs_witness :
    ∃ p, ([WorkerMessage.log [1, 2], .flush 7].get? p = some (.flush 7) ∧
      deliveredBytes [Event.wrote [1, 2] .success, .osFlush true] =
        concatPayloads (([WorkerMessage.log [1, 2], .flush 7]).take p)) :=
  flush_barrier_delivers_prior_logs [.log [1, 2], .flush 7] [.ready] [[.ok 2 true]]
    [true] [.wrote [1, 2] .success, .osFlush true] [] 7 (by decide) (by decide)

/-- Claim C5: any I/O error surfaced by the retry-write primitive while the
worker handles `Log` messages is reported to stderr and the loop continues,
at every Log-handling write site: the immediate-write path for large
payloads (worker.rs:114-119), the single-payload path after an empty
`try_recv` (worker.rs:187-192), the batch-write path for two combined
payloads (worker.rs:151-160), and the held-payload write when a flush
interrupts (worker.rs:163-174, where the completion handle is still
signaled before the error is reported).  In each case the failing write
produces the `wrote`/`diagWrite` events and the worker then processes the
remaining messages unchanged — a single failed write never terminates the
task.  On the facade's hot path (lib.rs:418-420), a failed enqueue is
reported only to stderr and `log` still returns unit: no error reaches the
caller. -/
theorem write_error_reported_and_loop_continues :
    (∀ (m : List Nat) (rest : List WorkerMessage) (av : List TRSignal)
        (sched : List WStep) (ws : List (List WStep)) (fl : List Bool),
        1280 ≤ m.length →
        (write_buffer m sched).2 = .ioError →
        run (.log m :: rest) av (sched :: ws) fl =
          .wrote (write_buffer m sched).1 .ioError :: .diagWrite ::
            run rest av ws fl) ∧
    (∀ (m : List Nat) (rest : List WorkerMessage) (av' : List TRSignal)
        (sched : List WStep) (ws : List (List WStep)) (fl : List Bool),
        m.length < 1280 →
        (write_buffer m sched).2 = .ioError →
        run (.log m :: rest) (.empty :: av') (sched :: ws) fl =
          .wrote (write_buffer m sched).1 .ioError :: .diagWrite ::
            run rest av' ws fl) ∧
    (∀ (payload : List Nat), log_send false payload = ((), [.stderrDiag])) ∧
    (∀ (m m2 : List Nat) (rest2 : List WorkerMessage) (av' : List TRSignal)
        (sched : List WStep) (ws : List (List WStep)) (fl : List Bool),
        m.length < 1280 →
        (write_buffer (m ++ m2) sched).2 = .ioError →
        run (.log m :: .log m2 :: rest2) (.ready :: av') (sched :: ws) fl =
          .wrote (write_buffer (m ++ m2) sched).1 .ioError :: .diagWrite ::
            run rest2 av' ws fl) ∧
    (∀ (m : List Nat) (j : Nat) (rest2 : List WorkerMessage)
        (av' : List TRSignal) (sched : List WStep) (ws : List (List WStep))
        (fl : List Bool),
        m.length < 1280 →
        (write_buffer m sched).2 = .ioError →
        run (.log m :: .flush j :: rest2) (.ready :: av') (sched :: ws) fl =
          .wrote (write_buffer m sched).1 .ioError :: .osFlush (pop fl true).1 ::
            .signaled j :: .diagWrite ::
            (flushDiag (pop fl true).1 ++ run rest2 av' ws (pop fl true).2)) := by
  refine ⟨?_, ?_, ?_, ?_, ?_⟩
  · intro m rest av sched ws fl hm herr
    rw [run_big_eq m rest av (sched :: ws) fl hm]
    simp [pop, herr, diagOf]
  · intro m rest av' sched ws fl hm herr
    rw [run_empty_eq m rest av' (sched :: ws) fl hm]
    simp [pop, herr, diagOf]
  · intro payload
    rfl
  · intro m m2 rest2 av' sched ws fl hm herr
    rw [run_batch_eq m m2 rest2 av' (sched :: ws) fl hm]
    simp [pop, herr, diagOf]
  · intro m j rest2 av' sched ws fl hm herr
    rw [run_write_flush_eq m j rest2 av' (sched :: ws) fl hm]
    simp [pop, herr, diagOf]

set_option maxRecDepth 8192 in
/-- Witness for C5: a 1280-byte payload whose write fails hard is reported
to stderr and the loop goes on; two batched small payloads whose combined
write fails hard are likewise reported and the loop goes on; a failed
enqueue reports only to stderr. -/
theorem write_error_reported_and_loop_continues_witness :
    run [.log (List.replicate 1280 7)] [] [[.hardErr]] [] =
        .wrote (write_buffer (List.replicate 1280 7) [.hardErr]).1 .ioError ::
          .diagWrite :: run [] [] [] [] ∧
      run [.log [1], .log [2]] [.ready] [[.hardErr]] [] =
        .wrote (write_buffer ([1] ++ [2]) [.hardErr]).1 .ioError ::
          .diagWrite :: run [] [] [] [] ∧
      log_send false [1] = ((), [.stderrDiag]) :=
  ⟨write_error_reported_and_loop_continues.1 (List.replicate 1280 7) [] []
      [.hardErr] [] [] (by rw [List.length_replicate]) (by rfl),
    write_error_reported_and_loop_continues.2.2.2.1 [1] [2] [] [] [.hardErr]
      [] [] (by decide) (by rfl),
    write_error_reported_and_loop_continues.2.2.1 [1]⟩

/-- Claim C6 (counterexample): the worker does not drain all pending
messages before writing.  The code performs exactly one opportunistic
`try_recv` per pass (worker.rs:141-142, "pipe one more message"): with
three small payloads `[1]`, `[2]`, `[3]` all pending, the first write event
carries only `[1] ++ [2]` — not the concatenation of all three pending
payloads — and `[3]` is written by a separate later pass. -/
theorem try_recv_batches_only_one_extra :
    run [.log [1], .log [2], .log [3]] [.ready, .ready]
        [[.ok 2 true], [.ok 1 true]] [] =
      [.wrote [1, 2] .success, .wrote [3] .success] ∧
    ([1, 2] : List Nat) ≠ [1] ++ [2] ++ [3] := by
  exact ⟨rfl, by decide⟩

/-- Claim C6 (amended): after receiving a log payload below the batching
threshold the worker performs exactly one non-blocking `try_recv`; when it
yields a second log payload, exactly those two payloads are appended to the
pipe buffer and written together (a successful write delivers precisely
their concatenation), and any further pending messages are left to later
iterations of the loop. -/
theorem batches_exactly_one_extra_payload :
    ∀ (m m2 : List Nat) (rest2 : List WorkerMessage) (av' : List TRSignal)
      (sched : List WStep) (ws : List (List WStep)) (fl : List Bool),
      m.length < 1280 →
      run (.log m :: .log m2 :: rest2) (.ready :: av') (sched :: ws) fl =
          .wrote (write_buffer (m ++ m2) sched).1
              (write_buffer (m ++ m2) sched).2 ::
            (diagOf (write_buffer (m ++ m2) sched).2 ++ run rest2 av' ws fl) ∧
        ((write_buffer (m ++ m2) sched).2 = .success →
          (write_buffer (m ++ m2) sched).1 = m ++ m2) := by
  intro m m2 rest2 av' sched ws fl hm
  exact ⟨run_batch_eq m m2 rest2 av' (sched :: ws) fl hm,
    fun h => write_buffer_success _ _ h⟩

/-- Witness for the amended C6: two one-byte payloads batched into a single
successful write. -/
theorem batches_exactly_one_extra_payload_witness :
    run [.log [1], .log [2]] [.ready] [[.ok 2 true]] [] =
        .wrote (write_buffer ([1] ++ [2]) [.ok 2 true]).1
            (write_buffer ([1] ++ [2]) [.ok 2 true]).2 ::
          (diagOf (write_buffer ([1] ++ [2]) [.ok 2 true]).2 ++
            run [] [] [] []) ∧
      ((write_buffer ([1] ++ [2]) [.ok 2 true]).2 = .success →
        (write_buffer ([1] ++ [2]) [.ok 2 true]).1 = [1] ++ [2]) :=
  batches_exactly_one_extra_payload [1] [2] [] [] [.ok 2 true] [] [] (by decide)

/-- Claim C8: the 1280-byte inline-batching threshold (worker.rs:111).  A
payload of at least 1280 bytes bypasses the pipe buffer and is written
immediately through the retry-write primitive — in full, when the write
succeeds — after which the loop continues with the remaining messages.  A
payload strictly below 1280 bytes is held for batching instead: when the
opportunistic `try_recv` finds a second log payload, the held payload goes
into the pipe buffer together with it. -/
theorem payload_threshold_routing :
    (∀ (m : List Nat) (rest : List WorkerMessage) (av : List TRSignal)
        (sched : List WStep) (ws : List (List WStep)) (fl : List Bool),
        1280 ≤ m.length →
        run (.log m :: rest) av (sched :: ws) fl =
            .wrote (write_buffer m sched).1 (write_buffer m sched).2 ::
              (diagOf (write_buffer m sched).2 ++ run rest av ws fl) ∧
          ((write_buffer m sched).2 = .success →
            (write_buffer m sched).1 = m)) ∧
    (∀ (m m2 : List Nat) (rest2 : List WorkerMessage) (av' : List TRSignal)
        (sched : List WStep) (ws : List (List WStep)) (fl : List Bool),
        m.length < 1280 →
        run (.log m :: .log m2 :: rest2) (.ready :: av') (sched :: ws) fl =
          .wrote (write_buffer (m ++ m2) sched).1
              (write_buffer (m ++ m2) sched).2 ::
            (diagOf (write_buffer (m ++ m2) sched).2 ++
              run rest2 av' ws fl)) := by
  constructor
  · intro m rest av sched ws fl hm
    exact ⟨run_big_eq m rest av (sched :: ws) fl hm,
      fun h => write_buffer_success _ _ h⟩
  · intro m m2 rest2 av' sched ws fl hm
    exact run_batch_eq m m2 rest2 av' (sched :: ws) fl hm

set_option maxRecDepth 8192 in
/-- Witness for C8: a payload of exactly 1280 bytes is written immediately
and in full by a single accepted write. -/
theorem payload_threshold_routing_witness :
    run [.log (List.replicate 1280 3)] [] [[.ok 1280 true]] [] =
        .wrote (write_buffer (List.replicate 1280 3) [.ok 1280 true]).1
            (write_buffer (List.replicate 1280 3) [.ok 1280 true]).2 ::
          (diagOf (write_buffer (List.replicate 1280 3) [.ok 1280 true]).2 ++
            run [] [] [] []) ∧
      ((write_buffer (List.replicate 1280 3) [.ok 1280 true]).2 = .success →
        (write_buffer (List.replicate 1280 3) [.ok 1280 true]).1 =
          List.replicate 1280 3) :=
  payload_threshold_routing.1 (List.replicate 1280 3) [] [] [.ok 1280 true] [] []
    (by rw [List.length_replicate])

theorem wrapNegKey_le_iff (a b : List Char) (ha0 : 0 < a.length)
    (ha : a.length < 2 ^ 64) (hb0 : 0 < b.length) (hb : b.length < 2 ^ 64) :
    wrapNegKey a ≤ wrapNegKey b ↔ b.length ≤ a.length := by
  unfold wrapNegKey
  rw [Nat.mod_eq_of_lt (by omega), Nat.mod_eq_of_lt (by omega)]
  omega

theorem insertByKey_sorted (x : List Char × LevelFilter)
    (hx0 : 0 < x.1.length) (hx64 : x.1.length < 2 ^ 64) :
    ∀ (l : List (List Char × LevelFilter)), namesValid l = true →
      sortedByLenDesc l = true →
      sortedByLenDesc (insertByKey x l) = true ∧
        namesValid (insertByKey x l) = true := by
  intro l
  induction l with
  | nil =>
      intro _ _
      constructor
      · simp [insertByKey, sortedByLenDesc]
      · simp [insertByKey, namesValid]
        omega
  | cons y ys ih =>
      intro hv hs
      simp only [namesValid, Bool.and_eq_true, decide_eq_true_eq] at hv
      obtain ⟨⟨hy0, hy64⟩, hvys⟩ := hv
      by_cases hcond : wrapNegKey y.1 ≤ wrapNegKey x.1
      · have hxy : x.1.length ≤ y.1.length :=
          (wrapNegKey_le_iff y.1 x.1 hy0 hy64 hx0 hx64).1 hcond
        simp only [insertByKey]
        rw [if_pos hcond]
        cases ys with
        | nil =>
            constructor
            · simp [insertByKey, sortedByLenDesc, Nat.ble_eq]
              exact hxy
            · simp [insertByKey, namesValid]
              exact ⟨⟨hy0, hy64⟩, hx0, hx64⟩
        | cons z zs =>
            simp only [namesValid, Bool.and_eq_true, decide_eq_true_eq] at hvys
            obtain ⟨⟨hz0, hz64⟩, hvzs⟩ := hvys
            simp only [sortedByLenDesc, Bool.and_eq_true, Nat.ble_eq] at hs
            obtain ⟨hzy, hsz⟩ := hs
            have hvz : namesValid (z :: zs) = true := by
              simp only [namesValid, Bool.and_eq_true, decide_eq_true_eq]
              exact ⟨⟨hz0, hz64⟩, hvzs⟩
            obtain ⟨hihs, hihv⟩ := ih hvz hsz
            by_cases hcz : wrapNegKey z.1 ≤ wrapNegKey x.1
            · simp only [insertByKey] at hihs hihv ⊢
              rw [if_pos hcz] at hihs hihv ⊢
              constructor
              · simp only [sortedByLenDesc, Bool.and_eq_true, Nat.ble_eq]
                exact ⟨hzy, hihs⟩
              · simp only [namesValid, Bool.and_eq_true, decide_eq_true_eq] at hihv ⊢
                exact ⟨⟨hy0, hy64⟩, hihv⟩
            · have hzx : ¬ x.1.length ≤ z.1.length := fun hle =>
                hcz ((wrapNegKey_le_iff z.1 x.1 hz0 hz64 hx0 hx64).2 hle)
              simp only [insertByKey]
              rw [if_neg hcz]
              constructor
              · simp only [sortedByLenDesc, Bool.and_eq_true, Nat.ble_eq]
                refine ⟨hxy, by omega, ?_⟩
                simpa [sortedByLenDesc, Bool.and_eq_true, Nat.ble_eq] using hsz
              · simp only [namesValid, Bool.and_eq_true, decide_eq_true_eq]
                exact ⟨⟨hy0, hy64⟩, ⟨hx0, hx64⟩, ⟨hz0, hz64⟩, hvzs⟩
      · have hyx : ¬ x.1.length ≤ y.1.length := fun hle =>
          hcond ((wrapNegKey_le_iff y.1 x.1 hy0 hy64 hx0 hx64).2 hle)
        simp only [insertByKey]
        rw [if_neg hcond]
        constructor
        · simp only [sortedByLenDesc, Bool.and_eq_true, Nat.ble_eq]
          exact ⟨by omega, hs⟩
        · simp only [namesValid, Bool.and_eq_true, decide_eq_true_eq]
          exact ⟨⟨hx0, hx64⟩, ⟨hy0, hy64⟩, hvys⟩

/-- Claim C7 (counterexample): an override with an empty module name breaks
the descending-name-length order the claim relies on.  The source sorts by
`name.len().wrapping_neg()` (lib.rs:119) and `0usize.wrapping_neg() = 0` is
the smallest key, so the empty name sorts to the front, not the back: the
built list is not sorted by descending name length, and `enabled` on target
`"db"` at level `Debug` answers `false` (the empty name prefix-matches
everything, giving `Info`), while the first prefix match in the
descending-name-length-sorted arrangement of the same overrides is
`("db", Trace)`, which answers `true`. -/
theorem empty_name_override_sorts_first :
    emptyNameOpts.module_levels = [([], .info), ("db".toList, .trace)] ∧
    sortedByLenDesc emptyNameOpts.module_levels = false ∧
    enabled emptyNameOpts ("db".toList) .debug = false ∧
    enabled ⟨.trace, [("db".toList, .trace), ([], .info)]⟩ ("db".toList)
      .debug = true := by
  refine ⟨?_, ?_, ?_, ?_⟩ <;> decide

/-- Claim C7 (amended): `enabled` uses a most-specific-module-wins lookup,
provided every override's module name is nonempty (an empty name's wrapped
sort key is `0`, which sorts it first and shadows every other override; the
name lengths are also below `2^64`, as any real 64-bit process guarantees).
Under that proviso the override list built by `with_module_level` stays
sorted by descending name length, `enabled` compares the record's level
against the first override whose name starts the target (falling back to
the default level), and on the spec's example — overrides `("db", Info)`
and `("db::pool", Trace)` — `enabled "db::pool" Debug` is true
(most-specific match wins), `enabled "db::other" Debug` is false (falls
back to `db -> Info`), and a target matching no override falls back to the
default level. -/
theorem enabled_most_specific_match :
    (∀ (o : NonBlockingOptions) (t : List Char) (l : LevelFilter),
        0 < t.length → t.length < 2 ^ 64 →
        namesValid o.module_levels = true →
        sortedByLenDesc o.module_levels = true →
        sortedByLenDesc (with_module_level o t l).module_levels = true ∧
          namesValid (with_module_level o t l).module_levels = true) ∧
    (∀ (o : NonBlockingOptions) (target : List Char) (lvl : Level),
        enabled o target lvl =
          lfLe lvl.toLevelFilter
            (((o.module_levels.find? (fun p => p.1.isPrefixOf target)).map
                Prod.snd).getD o.default_level)) ∧
    enabled dbOpts ("db::pool".toList) .debug = true ∧
    enabled dbOpts ("db::other".toList) .debug = false ∧
    enabled dbOpts ("net".toList) .trace = true := by
  refine ⟨?_, ?_, ?_, ?_, ?_⟩
  · intro o t l ht0 ht64 hv hs
    exact insertByKey_sorted (t, l) ht0 ht64 o.module_levels hv hs
  · intro o target lvl
    rfl
  · decide
  · decide
  · decide

/-- Witness for C7: inserting a further nonempty-named override into the
example options keeps the override list sorted by descending name length
and all names valid. -/
theorem enabled_most_specific_match_witness :
    sortedByLenDesc (with_module_level dbOpts ("a".toList) .info).module_levels =
        true ∧
      namesValid (with_module_level dbOpts ("a".toList) .info).module_levels =
        true :=
  enabled_most_specific_match.1 dbOpts ("a".toList) .info (by decide) (by decide)
    (by decide) (by decide)

/-- Claim C9: `shutdown` transitions the running flag from `true` to
`false` through a compare-and-swap exactly once.  From a running logger the
first call returns success with the flag now `false`; a second call fails
with the already-shut-down error, and a failing call never changes the
flag. -/
theorem shutdown_cas_exactly_once :
    shutdown true = (Except.ok (), false) ∧
    shutdown false =
      (Except.error
          (.error "Failed to shutdown logger: It was already shutted down"),
        false) ∧
    (∀ (b : Bool) (e : NonBlockingLoggerError),
        (shutdown b).1 = Except.error e → (shutdown b).2 = b) := by
  refine ⟨rfl, rfl, ?_⟩
  intro b e h
  cases b with
  | false => rfl
  | true => simp [shutdown] at h

/-- Witness for C9: the failing second call leaves the flag `false`. -/
theorem shutdown_cas_exactly_once_witness :
    (shutdown false).2 = false :=
  shutdown_cas_exactly_once.2.2 false
    (.error "Failed to shutdown logger: It was already shutted down") (by rfl)

theorem write_with_retry_internal_from_take (bytes : List Nat) :
    ∀ (steps : List WStep) (written : Nat),
      ∃ k, write_with_retry_internal_from bytes written steps =
        (bytes.drop written).take k := by
  intro steps
  induction steps with
  | nil =>
      intro written
      exact ⟨0, by simp [write_with_retry_internal_from]⟩
  | cons s rest ih =>
      intro written
      by_cases hw : written < bytes.length
      · cases s with
        | ok n waitOk =>
            cases n with
            | zero =>
                cases waitOk with
                | true =>
                    simpa [write_with_retry_internal_from, hw] using ih written
                | false =>
                    exact ⟨0, by simp [write_with_retry_internal_from, hw]⟩
            | succ n =>
                obtain ⟨k, hk⟩ := ih (written + (n+1))
                refine ⟨(n+1) + k, ?_⟩
                simp only [write_with_retry_internal_from, hw, if_pos]
                have hdd : bytes.drop (written + (n+1)) =
                    (bytes.drop written).drop (n+1) := by
                  rw [List.drop_drop]
                rw [hk, hdd]
                conv_rhs => rw [List.take_add]
        | wouldBlock waitOk =>
            cases waitOk with
            | true =>
                simpa [write_with_retry_internal_from, hw] using ih written
            | false =>
                exact ⟨0, by simp [write_with_retry_internal_from, hw]⟩
        | hardErr =>
            exact ⟨0, by simp [write_with_retry_internal_from, hw]⟩
      · exact ⟨0, by simp [write_with_retry_internal_from, hw]⟩

/-- Claim C10: the internal stderr side-channel writer never reports
failure to its caller — its return carries only the delivered bytes, with
no error component.  On a hard write error, or when the wait after a
zero-byte or would-block result fails, it breaks out at once, silently
abandoning every remaining byte, whatever the rest of the schedule holds;
and whatever happens, what it delivers is a (possibly truncated) initial
segment of the diagnostic message, never garbage. -/
theorem internal_stderr_writer_swallows_failures :
    (∀ (bytes : List Nat) (written : Nat) (rest : List WStep),
        write_with_retry_internal_from bytes written (.hardErr :: rest) = []) ∧
    (∀ (bytes : List Nat) (written : Nat) (rest : List WStep),
        write_with_retry_internal_from bytes written (.wouldBlock false :: rest) =
            [] ∧
          write_with_retry_internal_from bytes written (.ok 0 false :: rest) =
            []) ∧
    (∀ (bytes : List Nat) (steps : List WStep),
        ∃ k, write_with_retry_internal bytes steps = bytes.take k) := by
  refine ⟨?_, ?_, ?_⟩
  · intro bytes written rest
    by_cases hw : written < bytes.length <;>
      simp [write_with_retry_internal_from, hw]
  · intro bytes written rest
    constructor <;> (by_cases hw : written < bytes.length <;>
      simp [write_with_retry_internal_from, hw])
  · intro bytes steps
    have h := write_with_retry_internal_from_take bytes steps 0
    simpa [write_with_retry_internal] using h

end NonblockLog
